import Mathlib

/-!
Verification of the ci-matrix-planner directive engine (src/index.js).

Strings are modelled as lists of characters (`Str`).  JavaScript regular
expression character classes are modelled on the ASCII range that the
program's directives live in: the `\s` class keeps space, tab, newline,
carriage return, vertical tab and form feed; the exotic Unicode space
separators are out of the model.  All definitions below are translated
from the functions of src/index.js; line/column references are to that
file.
-/

namespace Planner

abbrev Str := List Char

/-- Coerces a Lean string literal into the character-list model. -/
def str (s : String) : Str := s.data

/-- JS regex class \s (ASCII part): whitespace characters. -/
def isWs (c : Char) : Bool :=
  c == ' ' || c == '\t' || c == '\n' || c == '\r' ||
  c == Char.ofNat 11 || c == Char.ofNat 12

/-- JS line terminators relevant to the `.` regex class (which never
matches them): carriage return and newline. -/
def isLineTerm (c : Char) : Bool := c == '\r' || c == '\n'

/-- Character class [A-Za-z_] of the directive-key pattern. -/
def isKeyChar (c : Char) : Bool :=
  (decide ('A' ≤ c) && decide (c ≤ 'Z')) ||
  (decide ('a' ≤ c) && decide (c ≤ 'z')) || c == '_'

/-- JS regex class \w = [A-Za-z0-9_], used by the \b word boundary. -/
def isWordChar (c : Char) : Bool :=
  isKeyChar c || (decide ('0' ≤ c) && decide (c ≤ '9'))

/-- Lower-cases every character (String.prototype.toLowerCase, ASCII part). -/
def toLowerStr (l : Str) : Str := l.map Char.toLower

/-- Strips trailing whitespace (helper of the trim model). -/
def trimRight (l : Str) : Str := (l.reverse.dropWhile isWs).reverse

/-- String.prototype.trim: strips leading and trailing whitespace. -/
def trimStr (l : Str) : Str := trimRight (l.dropWhile isWs)

/-- String.prototype.split(/\r?\n/): cuts the text into lines, a CR
immediately before a LF is consumed with it, a lone CR stays in its line. -/
def splitLines : Str → List Str
  | [] => [[]]
  | [c] => if c = '\n' then [[], []] else [[c]]
  | c :: d :: rest =>
    if c = '\n' then [] :: splitLines (d :: rest)
    else if c = '\r' ∧ d = '\n' then [] :: splitLines rest
    else
      match splitLines (d :: rest) with
      | [] => [[c]]
      | line :: ls => (c :: line) :: ls

/-- One line of parseDirectives (src/index.js:15):
the match `ln.match(/^\s*([A-Za-z_]+)\s*=\s*(.+?)\s*$/)`, returning the
lower-cased key and the trimmed value on success.  The tail pattern
`\s*(.+?)\s*$` succeeds exactly when the text after `=` contains a
nonempty segment free of line terminators surrounded by whitespace;
whatever the backtracking chooses, the trimmed capture equals the trim
of the whole tail. -/
def parseLine (l : Str) : Option (Str × Str) :=
  let l1 := l.dropWhile isWs
  let key := l1.takeWhile isKeyChar
  let rest := (l1.dropWhile isKeyChar).dropWhile isWs
  if key = [] then none
  else
    match rest with
    | e :: v =>
      if e = '=' then
        let tv := trimStr v
        if tv = [] then
          if v.any (fun c => !isLineTerm c) then some (toLowerStr key, []) else none
        else
          if tv.all (fun c => !isLineTerm c) then some (toLowerStr key, tv) else none
      else none
    | [] => none

/-- parseDirectives (src/index.js:10-23): folds the matched lines into a
map from keys to values, later lines overwriting earlier ones.  The map
is modelled as a lookup function. -/
def parseDirectives (msg : Str) : Str → Option Str :=
  (splitLines msg).foldl
    (fun m ln =>
      match parseLine ln with
      | some kv => fun q => if q = kv.1 then some kv.2 else m q
      | none => m)
    (fun _ => none)

/-- Separator class of normalizeList's split(/[, \n]+/) (src/index.js:28):
comma, space and newline only. -/
def isSep (c : Char) : Bool := c == ',' || c == ' ' || c == '\n'

/-- Worker of the split(/[, \n]+/) step: cur holds the characters of
the chunk being scanned, in reverse. -/
def splitSepsAux (cur : Str) : Str → List Str
  | [] => if cur = [] then [] else [cur.reverse]
  | c :: cs =>
    if isSep c then
      if cur = [] then splitSepsAux [] cs else cur.reverse :: splitSepsAux [] cs
    else splitSepsAux (c :: cur) cs

/-- The split(/[, \n]+/) step: maximal runs of non-separator characters.
(The empty pieces JS produces at the edges are dropped by the later
filter(Boolean), so they are elided here.) -/
def splitSeps (l : Str) : List Str := splitSepsAux [] l

/-- normalizeList (src/index.js:25-31): split on runs of comma/space/
newline, trim each piece, drop the empty ones. -/
def normalizeList (raw : Str) : List Str :=
  ((splitSeps raw).map trimStr).filter (fun t => !t.isEmpty)

/-- The Set-based loop of lowerUnique: keeps the first occurrence of
each element, threading the set of already-seen elements. -/
def dedupKeepFirst (seen : List Str) : List Str → List Str
  | [] => []
  | x :: xs =>
    if x ∈ seen then dedupKeepFirst seen xs
    else x :: dedupKeepFirst (x :: seen) xs

/-- lowerUnique (src/index.js:33-43): lower-case, then first-seen dedup. -/
def lowerUnique (l : List Str) : List Str :=
  dedupKeepFirst [] (l.map toLowerStr)

/-- Array.prototype.join(" "). -/
def joinSp : List Str → Str
  | [] => []
  | [t] => t
  | t :: ls => t ++ ' ' :: joinSp ls

/-- The composite list normalizer of the spec (§4.2): split/trim/drop
followed by the ordered-unique-lowercase pass, the composition the
planner applies to the only/skip job lists (src/index.js:85-90). -/
def normalizedTokens (raw : Str) : List Str := lowerUnique (normalizeList raw)

/-- Index of the first occurrence of an element (0 when absent), used
to express the first-seen ordering of lowerUnique's output. -/
def firstIdx (a : Str) : List Str → Nat
  | [] => 0
  | x :: xs => if x = a then 0 else firstIdx a xs + 1

/-- The configuration object (all fields optional; `none` models an
absent JS field, which is falsy, while a present empty array is truthy). -/
structure Config where
  jobs : Option (List Str)
  targets : Option (List Str)
  defaultsMode : Option Str
  defaultsJobs : Option (List Str)
  defaultsTargets : Option (List Str)
  defaultsOnlyJobs : Option (List Str)
  defaultsSkipJobs : Option (List Str)
  fullBuildJob : Option Str
deriving DecidableEq

/-- The configuration with every field absent. -/
def Config.empty : Config := ⟨none, none, none, none, none, none, none, none⟩

/-- The opts argument of computePlan. -/
structure Opts where
  config : Config
  message : Str
  labels : List Str
  modeInput : Str
deriving DecidableEq

/-- The plan value computePlan returns (list-valued fields; the joined
string and JSON renderings are presentational). -/
structure Plan where
  mode : Str
  enabledJobs : List Str
  onlyJobs : List Str
  skipJobs : List Str
  targets : List Str
deriving DecidableEq

/-- JS `a || b` for string values: an absent or empty string falls
through to the default. -/
def strOr (o : Option Str) (d : Str) : Str :=
  match o with
  | some s => if s = [] then d else s
  | none => d

/-- JS `a || b` for array values: only an absent field falls through
(a present empty array is truthy). -/
def listOr (o : Option (List Str)) (d : List Str) : List Str := o.getD d

/-- The five built-in job names (src/index.js:62). -/
def builtinJobs : List Str :=
  [str "feelpp", str "testsuite", str "toolboxes", str "mor", str "python"]

/-- The five built-in distro:version targets (src/index.js:66-68). -/
def builtinTargets : List Str :=
  [str "ubuntu:24.04", str "ubuntu:22.04", str "debian:13", str "debian:12",
   str "fedora:42"]

/-- The directive map of the (trimmed) message (src/index.js:48,51). -/
def dirsOf (o : Opts) : Str → Option Str := parseDirectives (trimStr o.message)

/-- Job universe: cfg.jobs or the built-in five (src/index.js:62). -/
def jobUniverse (cfg : Config) : List Str := listOr cfg.jobs builtinJobs

/-- defaultJobs = cfg.defaults?.jobs || jobsCfg (src/index.js:63). -/
def defaultJobsOf (cfg : Config) : List Str :=
  listOr cfg.defaultsJobs (jobUniverse cfg)

/-- defaultTargets = cfg.defaults?.targets || targetsCfg (src/index.js:66-69). -/
def defaultTargetsOf (cfg : Config) : List Str :=
  listOr cfg.defaultsTargets (listOr cfg.targets builtinTargets)

/-- The collapsed full-build job (src/index.js:78). -/
def fullJobOf (cfg : Config) : Str := strOr cfg.fullBuildJob (str "feelpp-spack")

/-- Mode resolution including the label overrides (src/index.js:54-59,72-73). -/
def resolveMode (o : Opts) : Str :=
  let labels := lowerUnique o.labels
  let m0 := strOr (some o.modeInput)
    (strOr (dirsOf o (str "mode")) (strOr o.config.defaultsMode (str "components")))
  let m1 := toLowerStr m0
  let m2 := if str "ci-mode-full" ∈ labels then str "full" else m1
  if str "ci-mode-components" ∈ labels then str "components" else m2

/-- The initial enabled-job list (src/index.js:76-82). -/
def initialJobs (o : Opts) : List Str :=
  if resolveMode o = str "full" then [fullJobOf o.config]
  else defaultJobsOf o.config

/-- onlyJobs token list (src/index.js:85-87). -/
def onlyToksOf (o : Opts) : List Str :=
  lowerUnique (normalizeList
    (strOr (dirsOf o (str "only")) (joinSp ((o.config.defaultsOnlyJobs).getD []))))

/-- skipJobs token list (src/index.js:88-90). -/
def skipToksOf (o : Opts) : List Str :=
  lowerUnique (normalizeList
    (strOr (dirsOf o (str "skip")) (joinSp ((o.config.defaultsSkipJobs).getD []))))

/-- The only/skip filtering of the enabled jobs (src/index.js:92-97). -/
def enabledJobsOf (o : Opts) : List Str :=
  let e0 := initialJobs o
  let only := onlyToksOf o
  let skip := skipToksOf o
  let e1 := if only = [] then e0
    else e0.filter (fun j => decide (toLowerStr j ∈ only))
  if skip = [] then e1
  else e1.filter (fun j => decide (toLowerStr j ∉ skip))

/-- The only-as-targets / targets / include / exclude steps of the
target resolution (src/index.js:100-118): start from the defaults, let
a colon-bearing only replace the working list, a targets directive
replace it again, include append without duplicates, exclude remove. -/
def targetSteps (dirs : Str → Option Str) (defTargets : List Str) : List Str :=
  let w1 :=
    match dirs (str "only") with
    | some ov => if ov ≠ [] ∧ ':' ∈ ov then normalizeList ov else defTargets
    | none => defTargets
  let w2 :=
    match dirs (str "targets") with
    | some tv => if tv ≠ [] then normalizeList tv else w1
    | none => w1
  let w3 :=
    match dirs (str "include") with
    | some iv =>
      if iv ≠ [] then
        (normalizeList iv).foldl (fun acc t => if t ∈ acc then acc else acc ++ [t]) w2
      else w2
    | none => w2
  match dirs (str "exclude") with
  | some ev =>
    if ev ≠ [] then w3.filter (fun t => decide (t ∉ normalizeList ev)) else w3
  | none => w3

/-- Target resolution (src/index.js:99-121): the four steps, then the
reset to the default list when the outcome is empty. -/
def resolveTargets (dirs : Str → Option Str) (defTargets : List Str) : List Str :=
  if targetSteps dirs defTargets = [] then defTargets
  else targetSteps dirs defTargets

/-- computePlan (src/index.js:45-135), assembled from the pieces above. -/
def computePlan (o : Opts) : Plan :=
  { mode := resolveMode o
    enabledJobs := enabledJobsOf o
    onlyJobs := onlyToksOf o
    skipJobs := skipToksOf o
    targets := resolveTargets (dirsOf o) (defaultTargetsOf o.config) }

/-- The six recognized directive keys of hasDirective. -/
def dirKeys : List Str :=
  [str "only", str "skip", str "targets", str "include", str "exclude", str "mode"]

/-- Attempts the `(only|skip|targets|include|exclude|mode)\s*=` part of
hasDirective's pattern at the head of a string. -/
def matchKeyEq (s : Str) : Bool :=
  dirKeys.any (fun k =>
    if s.take k.length = k then
      match (s.drop k.length).dropWhile isWs with
      | '=' :: _ => true
      | _ => false
    else false)

/-- The \b word boundary before a word character at position i. -/
def boundaryAt (txt : Str) (i : Nat) : Bool :=
  if i = 0 then true
  else
    match txt.get? (i - 1) with
    | some c => !isWordChar c
    | none => false

/-- hasDirective (src/index.js:193-194): the un-anchored test
`/\b(only|skip|targets|include|exclude|mode)\s*=/.test(txt)` — the key
may occur anywhere after a word boundary, not only at a line start. -/
def hasDirective (txt : Str) : Bool :=
  (List.range (txt.length + 1)).any (fun i => boundaryAt txt i && matchKeyEq (txt.drop i))

/-- Modelled from the spec's words (§3 invariant and §4.3): a detector
that recognizes a directive key only at the start of a line, after
optional leading whitespace, followed by optional whitespace and `=`.
Named for comparison against the hasDirective of src/index.js. -/
def specLineStartDirective (txt : Str) : Bool :=
  (splitLines txt).any (fun ln =>
    let l1 := ln.dropWhile isWs
    dirKeys.any (fun k =>
      if l1.take k.length = k then
        match (l1.drop k.length).dropWhile isWs with
        | '=' :: _ => true
        | _ => false
      else false))

/-! Basic lemmas about the dedup loop and lowerUnique. -/

theorem mem_dedupKeepFirst {x : Str} :
    ∀ {seen l : List Str}, x ∈ dedupKeepFirst seen l ↔ x ∈ l ∧ x ∉ seen := by
  intro seen l
  induction l generalizing seen with
  | nil => simp [dedupKeepFirst]
  | cons a as ih =>
    simp only [dedupKeepFirst]
    by_cases h : a ∈ seen
    · rw [if_pos h, ih, List.mem_cons]
      constructor
      · rintro ⟨hx, hns⟩; exact ⟨Or.inr hx, hns⟩
      · rintro ⟨hx | hx, hns⟩
        · exact absurd (hx ▸ h) hns
        · exact ⟨hx, hns⟩
    · rw [if_neg h]
      simp only [List.mem_cons, ih, List.mem_cons]
      constructor
      · rintro (rfl | ⟨hx, hns⟩)
        · exact ⟨Or.inl rfl, h⟩
        · exact ⟨Or.inr hx, fun hm => hns (Or.inr hm)⟩
      · rintro ⟨rfl | hx, hns⟩
        · exact Or.inl rfl
        · by_cases hxa : x = a
          · exact Or.inl hxa
          · exact Or.inr ⟨hx, fun hm => hm.elim hxa hns⟩

theorem mem_lowerUnique {x : Str} {l : List Str} :
    x ∈ lowerUnique l ↔ ∃ y ∈ l, toLowerStr y = x := by
  simp [lowerUnique, mem_dedupKeepFirst]

theorem lowerUnique_ne_nil {l : List Str} (h : l ≠ []) : lowerUnique l ≠ [] := by
  cases l with
  | nil => exact absurd rfl h
  | cons a as =>
    simp [lowerUnique, dedupKeepFirst]

/-! Projections of computePlan onto its pieces. -/

theorem computePlan_mode (o : Opts) : (computePlan o).mode = resolveMode o := rfl

theorem computePlan_enabledJobs (o : Opts) :
    (computePlan o).enabledJobs = enabledJobsOf o := rfl

theorem computePlan_targets (o : Opts) :
    (computePlan o).targets = resolveTargets (dirsOf o) (defaultTargetsOf o.config) := rfl

/-- C10: when the label set carries both sentinels (case-insensitively),
the components sentinel is checked second and wins: the resolved mode is
"components". -/
theorem c10_both_sentinels_components (o : Opts)
    (_hfull : ∃ l ∈ o.labels, toLowerStr l = str "ci-mode-full")
    (hcomp : ∃ l ∈ o.labels, toLowerStr l = str "ci-mode-components") :
    (computePlan o).mode = str "components" := by
  rw [computePlan_mode, resolveMode]
  have hmem : str "ci-mode-components" ∈ lowerUnique o.labels := by
    rw [mem_lowerUnique]; exact hcomp
  simp only [hmem, if_pos]

/-- Witness for C10 at a concrete label set carrying both sentinels. -/
theorem c10_witness :
    (computePlan ⟨Config.empty, str "mode=full", [str "CI-Mode-Full", str "ci-mode-components"],
      str ""⟩).mode = str "components" := by
  apply c10_both_sentinels_components
  · exact ⟨str "CI-Mode-Full", by decide, by decide⟩
  · exact ⟨str "ci-mode-components", by decide, by decide⟩

/-- C8: whenever the resolved mode is "full", the initial enabled-job
list collapses to the single configured full-build job (feelpp-spack by
default), whatever the component job configuration says; in particular
the message "mode=full" on the empty configuration enables exactly
feelpp-spack. -/
theorem c8_full_mode_single_job :
    (∀ o : Opts, (computePlan o).mode = str "full" →
      initialJobs o = [fullJobOf o.config]) ∧
    (computePlan ⟨Config.empty, str "mode=full", [], str ""⟩).enabledJobs =
      [str "feelpp-spack"] := by
  constructor
  · intro o h
    rw [computePlan_mode] at h
    rw [initialJobs, if_pos h]
  · decide

/-- Witness for C8: the full-mode hypothesis discharged on a concrete input. -/
theorem c8_witness :
    initialJobs ⟨Config.empty, str "mode=full", [], str ""⟩ =
      [fullJobOf Config.empty] :=
  c8_full_mode_single_job.1 ⟨Config.empty, str "mode=full", [], str ""⟩ (by decide)

/-- C2 counterexample: on the empty configuration with message
"mode=full" the enabled-job list is [feelpp-spack], which is not a
member of the job universe (the built-in five job names), refuting the
claim that enabledJobs always stays inside the only/skip-filtered job
universe. -/
theorem c2_counterexample :
    (computePlan ⟨Config.empty, str "mode=full", [], str ""⟩).enabledJobs =
      [str "feelpp-spack"] ∧
    str "feelpp-spack" ∉ jobUniverse Config.empty := by
  constructor
  · decide
  · decide

/-- C2 amended: every enabled job is a member of the initial enabled-job
list (the single full-build job in full mode, otherwise the configured
default job list, which falls back to the job universe); the only/skip
filters never append. -/
theorem c2_enabled_subset_initial (o : Opts) (j : Str)
    (hj : j ∈ (computePlan o).enabledJobs) : j ∈ initialJobs o := by
  rw [computePlan_enabledJobs] at hj
  simp only [enabledJobsOf] at hj
  split at hj
  · split at hj
    · exact hj
    · exact (List.mem_filter.mp hj).1
  · replace hj := (List.mem_filter.mp hj).1
    split at hj
    · exact hj
    · exact (List.mem_filter.mp hj).1

/-- Witness for C2's amended theorem on a concrete plan. -/
theorem c2_witness :
    str "feelpp" ∈ initialJobs ⟨Config.empty, str "", [], str ""⟩ :=
  c2_enabled_subset_initial ⟨Config.empty, str "", [], str ""⟩ (str "feelpp") (by decide)

/-- C7: the skip filter runs after the only filter, so no enabled job's
lower-cased name ever appears in the skip token list — a job named in
both only and skip is removed; on the message
"only=feelpp testsuite\nskip=testsuite" the enabled jobs are exactly
[feelpp]. -/
theorem c7_skip_after_only :
    (∀ (o : Opts) (j : Str), j ∈ (computePlan o).enabledJobs →
      toLowerStr j ∉ skipToksOf o) ∧
    (computePlan ⟨Config.empty, str "only=feelpp testsuite\nskip=testsuite", [],
      str ""⟩).enabledJobs = [str "feelpp"] := by
  constructor
  · intro o j hj
    rw [computePlan_enabledJobs] at hj
    simp only [enabledJobsOf] at hj
    split at hj
    · next hskip => rw [hskip]; exact List.not_mem_nil _
    · have := (List.mem_filter.mp hj).2
      exact of_decide_eq_true this
  · decide

/-- Witness for C7 at the concrete example message. -/
theorem c7_witness :
    toLowerStr (str "feelpp") ∉
      skipToksOf ⟨Config.empty, str "only=feelpp testsuite\nskip=testsuite", [], str ""⟩ :=
  c7_skip_after_only.1
    ⟨Config.empty, str "only=feelpp testsuite\nskip=testsuite", [], str ""⟩
    (str "feelpp") (by decide)

/-! Lemmas about the separator splitter and token non-emptiness. -/

theorem flatten_splitSepsAux :
    ∀ (l cur : Str),
      (splitSepsAux cur l).flatten = cur.reverse ++ l.filter (fun c => !isSep c) := by
  intro l
  induction l with
  | nil =>
    intro cur
    by_cases h : cur = [] <;> simp [splitSepsAux, h]
  | cons c cs ih =>
    intro cur
    cases hs : isSep c with
    | true =>
      by_cases hc : cur = []
      · simp [splitSepsAux, hs, hc, ih, List.filter_cons]
      · simp [splitSepsAux, hs, hc, ih, List.filter_cons]
    | false =>
      simp [splitSepsAux, hs, ih, List.filter_cons]

theorem exists_chunk_of_mem {c : Char} {raw : Str}
    (hc : c ∈ raw) (hs : isSep c = false) : ∃ t ∈ splitSeps raw, c ∈ t := by
  have hm : c ∈ (splitSeps raw).flatten := by
    rw [splitSeps, flatten_splitSepsAux]
    simp only [List.reverse_nil, List.nil_append]
    exact List.mem_filter.mpr ⟨hc, by simp [hs]⟩
  exact List.mem_flatten.mp hm

theorem mem_dropWhile_of_not {p : Char → Bool} {c : Char} {l : Str}
    (hc : c ∈ l) (h : p c = false) : c ∈ l.dropWhile p := by
  rcases List.mem_append.mp
      ((List.takeWhile_append_dropWhile p l).symm ▸ hc) with ht | hd
  · exact absurd (List.mem_takeWhile_imp ht) (by simp [h])
  · exact hd

theorem mem_trimStr_of_not_ws {c : Char} {l : Str}
    (hc : c ∈ l) (h : isWs c = false) : c ∈ trimStr l := by
  rw [trimStr, trimRight, List.mem_reverse]
  exact mem_dropWhile_of_not (List.mem_reverse.mpr (mem_dropWhile_of_not hc h)) h

theorem normalizeList_ne_nil {raw : Str} {c : Char}
    (hc : c ∈ raw) (hsep : isSep c = false) (hws : isWs c = false) :
    normalizeList raw ≠ [] := by
  obtain ⟨t, ht, hct⟩ := exists_chunk_of_mem hc hsep
  have h1 : c ∈ trimStr t := mem_trimStr_of_not_ws hct hws
  have h2 : trimStr t ≠ [] := fun h => by simp [h] at h1
  intro hnil
  have hmem : trimStr t ∈ normalizeList raw := by
    unfold normalizeList
    exact List.mem_filter.mpr
      ⟨List.mem_map_of_mem _ ht, by simp [List.isEmpty_iff, h2]⟩
  rw [hnil] at hmem
  exact List.not_mem_nil _ hmem

/-- C6: a targets directive unconditionally replaces the working list,
so once it is present (and non-empty) the only directive has no effect
on the resolved target list; and the example message
"targets=fedora:42\ninclude=debian:13\nexclude=fedora:42" resolves to
exactly [debian:13] — targets sets the base, include appends, exclude
removes, and the result is non-empty so no reset happens. -/
theorem c6_targets_pipeline :
    (∀ (d₁ d₂ : Str → Option Str) (defT : List Str) (tv : Str),
      d₁ (str "targets") = some tv → tv ≠ [] →
      d₂ (str "targets") = d₁ (str "targets") →
      d₂ (str "include") = d₁ (str "include") →
      d₂ (str "exclude") = d₁ (str "exclude") →
      resolveTargets d₁ defT = resolveTargets d₂ defT) ∧
    (computePlan ⟨Config.empty,
      str "targets=fedora:42\ninclude=debian:13\nexclude=fedora:42", [],
      str ""⟩).targets = [str "debian:13"] := by
  constructor
  · intro d₁ d₂ defT tv h1 htv h2 h3 h4
    unfold resolveTargets targetSteps
    rw [h2, h3, h4, h1]
    simp [htv]
  · decide

/-- Witness for C6: with targets present, adding an only directive does
not change the resolved target list. -/
theorem c6_witness :
    resolveTargets (parseDirectives (str "only=x:1\ntargets=a:1")) builtinTargets =
      resolveTargets (parseDirectives (str "targets=a:1")) builtinTargets :=
  c6_targets_pipeline.1 (parseDirectives (str "only=x:1\ntargets=a:1"))
    (parseDirectives (str "targets=a:1")) builtinTargets (str "a:1")
    (by decide) (by decide) (by decide) (by decide) (by decide)

/-- C4 counterexample: a configuration whose targets field is the empty
array (truthy in JS) makes the default target list empty, and the plan's
target list comes out empty — the claim that the target list is
non-empty for every input fails. -/
theorem c4_counterexample :
    (computePlan ⟨⟨none, some [], none, none, none, none, none, none⟩,
      str "", [], str ""⟩).targets = [] := by decide

/-- C4 amended: whenever the only/targets/include/exclude steps leave
the working list empty it is reset to the configured default target
list, and the plan's target list is non-empty whenever that default
list is non-empty (the built-in default always is; a configured empty
list is passed through). -/
theorem c4_reset_to_defaults (o : Opts) :
    (targetSteps (dirsOf o) (defaultTargetsOf o.config) = [] →
      (computePlan o).targets = defaultTargetsOf o.config) ∧
    (defaultTargetsOf o.config ≠ [] → (computePlan o).targets ≠ []) := by
  constructor
  · intro h
    rw [computePlan_targets, resolveTargets, if_pos h]
  · intro hd
    rw [computePlan_targets, resolveTargets]
    split
    · exact hd
    · next h => exact h

/-- Witness for C4: a message that excludes the only configured target
triggers the reset to the (built-in, non-empty) default list. -/
theorem c4_witness :
    (computePlan ⟨Config.empty, str "targets=a:1\nexclude=a:1", [], str ""⟩).targets =
      defaultTargetsOf Config.empty ∧
    (computePlan ⟨Config.empty, str "targets=a:1\nexclude=a:1", [], str ""⟩).targets ≠ [] :=
  ⟨(c4_reset_to_defaults ⟨Config.empty, str "targets=a:1\nexclude=a:1", [], str ""⟩).1
      (by decide),
   (c4_reset_to_defaults ⟨Config.empty, str "targets=a:1\nexclude=a:1", [], str ""⟩).2
      (by decide)⟩

/-- C1 counterexample: with message "only=ubuntu:24.04,debian:12" on the
empty configuration the target list is replaced as claimed, but the
enabled-job list becomes empty, while with no only directive it is the
five default jobs — a colon-bearing only does affect job filtering. -/
theorem c1_counterexample :
    (computePlan ⟨Config.empty, str "only=ubuntu:24.04,debian:12", [],
      str ""⟩).targets = [str "ubuntu:24.04", str "debian:12"] ∧
    (computePlan ⟨Config.empty, str "only=ubuntu:24.04,debian:12", [],
      str ""⟩).enabledJobs = [] ∧
    (computePlan ⟨Config.empty, str "", [], str ""⟩).enabledJobs = builtinJobs ∧
    (computePlan ⟨Config.empty, str "only=ubuntu:24.04,debian:12", [],
      str ""⟩).enabledJobs ≠
      (computePlan ⟨Config.empty, str "", [], str ""⟩).enabledJobs := by
  refine ⟨by decide, by decide, by decide, by decide⟩

/-- C1 amended: a colon-bearing only directive (with no
targets/include/exclude directive present) replaces the target list with
exactly its normalized tokens, but job filtering is still affected: the
only value doubles as the only-job filter, so every remaining enabled
job's lower-cased name must appear among the only tokens. -/
theorem c1_only_colon (o : Opts) (ov : Str)
    (h1 : dirsOf o (str "only") = some ov) (h2 : ov ≠ []) (h3 : ':' ∈ ov)
    (ht : dirsOf o (str "targets") = none)
    (hi : dirsOf o (str "include") = none)
    (he : dirsOf o (str "exclude") = none) :
    (computePlan o).targets = normalizeList ov ∧
    ∀ j ∈ (computePlan o).enabledJobs,
      toLowerStr j ∈ lowerUnique (normalizeList ov) := by
  have hnn : normalizeList ov ≠ [] := normalizeList_ne_nil h3 (by decide) (by decide)
  constructor
  · have hsteps : targetSteps (dirsOf o) (defaultTargetsOf o.config) = normalizeList ov := by
      unfold targetSteps
      rw [h1, ht, hi, he]
      simp [h2, h3]
    rw [computePlan_targets, resolveTargets, hsteps, if_neg hnn]
  · intro j hj
    have honly : onlyToksOf o = lowerUnique (normalizeList ov) := by
      simp only [onlyToksOf, h1, strOr]
      rw [if_neg h2]
    have hne : lowerUnique (normalizeList ov) ≠ [] := lowerUnique_ne_nil hnn
    rw [computePlan_enabledJobs] at hj
    simp only [enabledJobsOf, honly, if_neg hne] at hj
    split at hj
    · exact of_decide_eq_true (List.mem_filter.mp hj).2
    · exact of_decide_eq_true (List.mem_filter.mp (List.mem_filter.mp hj).1).2

/-- Witness for C1's amended theorem at the example message. -/
theorem c1_witness :
    (computePlan ⟨Config.empty, str "only=ubuntu:24.04,debian:12", [],
      str ""⟩).targets = normalizeList (str "ubuntu:24.04,debian:12") :=
  (c1_only_colon ⟨Config.empty, str "only=ubuntu:24.04,debian:12", [], str ""⟩
    (str "ubuntu:24.04,debian:12") (by decide) (by decide) (by decide)
    (by decide) (by decide) (by decide)).1

/-! Lemmas for the directive detector. -/

theorem dropWhile_append_of_all {p : Char → Bool} {l₁ l₂ : Str}
    (h : ∀ c ∈ l₁, p c = true) :
    (l₁ ++ l₂).dropWhile p = l₂.dropWhile p := by
  induction l₁ with
  | nil => rfl
  | cons a t ih =>
    rw [List.cons_append, List.dropWhile_cons, if_pos (h a (List.mem_cons_self a t))]
    exact ih fun c hc => h c (List.mem_cons_of_mem a hc)

/-- C5 counterexample: the detector of src/index.js accepts
"see only=1", where the only recognized key occurs mid-line, while a
line-start-only detector (modelled from the spec's words) rejects it —
the claimed iff fails. -/
theorem c5_counterexample :
    hasDirective (str "see only=1") = true ∧
    specLineStartDirective (str "see only=1") = false := by
  refine ⟨by decide, by decide⟩

/-- C5 amended: the detector of src/index.js reports a blob as
directive-bearing iff one of the six keys occurs ANYWHERE in the text
after a word boundary (start of text or a non-word character), followed
by optional whitespace and `=`; a mid-line key=value fragment does
count whenever a non-word character precedes the key. (The line-start
behavior the claim describes is that of the strict variant in
src/unnamed/part_001, not of src/index.js.) -/
theorem c5_detector_anywhere (txt : Str) :
    hasDirective txt = true ↔
    ∃ (i : Nat) (k ws rest : Str), k ∈ dirKeys ∧
      (i = 0 ∨ ∃ c, txt.get? (i - 1) = some c ∧ isWordChar c = false) ∧
      (∀ c ∈ ws, isWs c = true) ∧
      txt.drop i = k ++ ws ++ '=' :: rest := by
  constructor
  · intro h
    rw [hasDirective, List.any_eq_true] at h
    obtain ⟨i, _hi, hpred⟩ := h
    rw [Bool.and_eq_true] at hpred
    obtain ⟨hbd, hmk⟩ := hpred
    rw [matchKeyEq, List.any_eq_true] at hmk
    obtain ⟨k, hk, hkp⟩ := hmk
    by_cases htake : (txt.drop i).take k.length = k
    · rw [if_pos htake] at hkp
      cases hu : ((txt.drop i).drop k.length).dropWhile isWs with
      | nil => rw [hu] at hkp; exact absurd hkp (by simp)
      | cons a rest =>
        rw [hu] at hkp
        have ha : a = '=' := by
          by_contra hne
          revert hkp
          cases a <;> simp_all
        subst ha
        refine ⟨i, k, ((txt.drop i).drop k.length).takeWhile isWs, rest, hk, ?_, ?_, ?_⟩
        · rw [boundaryAt] at hbd
          by_cases hi0 : i = 0
          · exact Or.inl hi0
          · rw [if_neg hi0] at hbd
            cases hg : txt.get? (i - 1) with
            | none => rw [hg] at hbd; exact absurd hbd (by simp)
            | some c =>
              rw [hg] at hbd
              exact Or.inr ⟨c, rfl, by simpa using hbd⟩
        · exact fun c hc => List.mem_takeWhile_imp hc
        · calc txt.drop i
              = (txt.drop i).take k.length ++ (txt.drop i).drop k.length :=
                (List.take_append_drop _ _).symm
            _ = k ++ (((txt.drop i).drop k.length).takeWhile isWs ++
                  ((txt.drop i).drop k.length).dropWhile isWs) := by
                rw [htake, List.takeWhile_append_dropWhile]
            _ = k ++ (((txt.drop i).drop k.length).takeWhile isWs ++ '=' :: rest) := by
                rw [hu]
            _ = k ++ ((txt.drop i).drop k.length).takeWhile isWs ++ '=' :: rest :=
                (List.append_assoc _ _ _).symm
    · rw [if_neg htake] at hkp
      exact absurd hkp (by simp)
  · rintro ⟨i, k, ws, rest, hk, hb, hws, hdrop⟩
    rw [hasDirective, List.any_eq_true]
    have hne : txt.drop i ≠ [] := by rw [hdrop]; simp
    have hile : i < txt.length + 1 := by
      rcases Nat.lt_or_ge txt.length i with h | h
      · exact absurd (List.drop_eq_nil_of_le (Nat.le_of_lt h)) hne
      · omega
    refine ⟨i, List.mem_range.mpr hile, ?_⟩
    rw [Bool.and_eq_true]
    constructor
    · rw [boundaryAt]
      by_cases hi0 : i = 0
      · rw [if_pos hi0]
      · rw [if_neg hi0]
        rcases hb with h | ⟨c, hc, hw⟩
        · exact absurd h hi0
        · have hc' : txt[i - 1]? = some c := by
            rw [← List.get?_eq_getElem?]; exact hc
          simp [hc', hw]
    · rw [matchKeyEq, List.any_eq_true]
      refine ⟨k, hk, ?_⟩
      have htake : (txt.drop i).take k.length = k := by
        rw [hdrop, List.append_assoc] at *
        rw [hdrop, List.take_left]
      rw [if_pos htake]
      have hdp : ((txt.drop i).drop k.length).dropWhile isWs = '=' :: rest := by
        have h1 : (txt.drop i).drop k.length = ws ++ '=' :: rest := by
          rw [hdrop, List.append_assoc, List.drop_left]
        rw [h1, dropWhile_append_of_all hws, List.dropWhile_cons]
        rw [if_neg (by decide)]
      rw [hdp]; rfl

/-! Character-class and trim lemmas. -/

theorem isWs_cases {c : Char} (h : isWs c = true) :
    c = ' ' ∨ c = '\t' ∨ c = '\n' ∨ c = '\r' ∨ c = Char.ofNat 11 ∨ c = Char.ofNat 12 := by
  simpa [isWs, or_assoc] using h

theorem keyChar_not_ws {c : Char} (h : isKeyChar c = true) : isWs c = false := by
  cases hw : isWs c
  · rfl
  · rcases isWs_cases hw with rfl | rfl | rfl | rfl | rfl | rfl <;>
      exact absurd h (by decide)

theorem ws_not_keyChar {c : Char} (h : isWs c = true) : isKeyChar c = false := by
  cases hk : isKeyChar c
  · rfl
  · rw [keyChar_not_ws hk] at h
    exact absurd h (by simp)

theorem takeWhile_append_of_all {p : Char → Bool} {l₁ l₂ : Str}
    (h : ∀ c ∈ l₁, p c = true) :
    (l₁ ++ l₂).takeWhile p = l₁ ++ l₂.takeWhile p := by
  induction l₁ with
  | nil => rfl
  | cons a t ih =>
    rw [List.cons_append, List.takeWhile_cons, if_pos (h a (List.mem_cons_self a t)),
      ih fun c hc => h c (List.mem_cons_of_mem a hc), List.cons_append]

theorem dropWhile_append_of_ne_nil {p : Char → Bool} {l₁ l₂ : Str}
    (h : l₁.dropWhile p ≠ []) :
    (l₁ ++ l₂).dropWhile p = l₁.dropWhile p ++ l₂ := by
  induction l₁ with
  | nil => exact absurd rfl h
  | cons a t ih =>
    cases hp : p a
    · simp [List.dropWhile_cons, hp]
    · rw [List.dropWhile_cons, if_pos hp] at h
      simp [List.dropWhile_cons, hp, ih h]

theorem trimRight_append_ws {x q : Str} (hq : ∀ c ∈ q, isWs c = true) :
    trimRight (x ++ q) = trimRight x := by
  unfold trimRight
  rw [List.reverse_append,
    dropWhile_append_of_all fun c hc => hq c (List.mem_reverse.mp hc)]

theorem trimStr_nil_of_ws {v : Str} (h : ∀ c ∈ v, isWs c = true) :
    trimStr v = [] := by
  have h1 : v.dropWhile isWs = [] := List.dropWhile_eq_nil_iff.mpr h
  rw [trimStr, h1]
  rfl

theorem trim_decomp (v : Str) :
    ∃ p q, v = p ++ trimStr v ++ q ∧ (∀ c ∈ p, isWs c = true) ∧
      (∀ c ∈ q, isWs c = true) := by
  refine ⟨v.takeWhile isWs, ((v.dropWhile isWs).reverse.takeWhile isWs).reverse,
    ?_, fun c hc => List.mem_takeWhile_imp hc,
    fun c hc => List.mem_takeWhile_imp (List.mem_reverse.mp hc)⟩
  have h2 : v.dropWhile isWs =
      trimStr v ++ ((v.dropWhile isWs).reverse.takeWhile isWs).reverse :=
    calc v.dropWhile isWs
        = (v.dropWhile isWs).reverse.reverse := (List.reverse_reverse _).symm
      _ = ((v.dropWhile isWs).reverse.takeWhile isWs ++
            (v.dropWhile isWs).reverse.dropWhile isWs).reverse := by
          rw [List.takeWhile_append_dropWhile]
      _ = ((v.dropWhile isWs).reverse.dropWhile isWs).reverse ++
            ((v.dropWhile isWs).reverse.takeWhile isWs).reverse :=
          List.reverse_append _ _
  calc v = v.takeWhile isWs ++ v.dropWhile isWs :=
        (List.takeWhile_append_dropWhile _ _).symm
    _ = v.takeWhile isWs ++ (trimStr v ++
          ((v.dropWhile isWs).reverse.takeWhile isWs).reverse) := by rw [← h2]
    _ = v.takeWhile isWs ++ trimStr v ++
          ((v.dropWhile isWs).reverse.takeWhile isWs).reverse :=
        (List.append_assoc _ _ _).symm

theorem ws_of_trim_nil {v : Str} (h : trimStr v = []) :
    ∀ c ∈ v, isWs c = true := by
  obtain ⟨p, q, hv, hp, hq⟩ := trim_decomp v
  rw [h, List.append_nil] at hv
  intro c hc
  rw [hv] at hc
  rcases List.mem_append.mp hc with h' | h'
  · exact hp c h'
  · exact hq c h'

theorem trim_pad {p m q : Str} (hp : ∀ c ∈ p, isWs c = true)
    (hq : ∀ c ∈ q, isWs c = true) :
    trimStr (p ++ m ++ q) = trimStr m := by
  have h1 : (p ++ m ++ q).dropWhile isWs = (m ++ q).dropWhile isWs := by
    rw [List.append_assoc]
    exact dropWhile_append_of_all hp
  rw [trimStr, h1]
  by_cases hm : m.dropWhile isWs = []
  · have hmw : ∀ c ∈ m, isWs c = true := List.dropWhile_eq_nil_iff.mp hm
    rw [dropWhile_append_of_all hmw, List.dropWhile_eq_nil_iff.mpr hq, trimStr, hm]
  · rw [dropWhile_append_of_ne_nil hm, trimRight_append_ws hq, trimStr]

theorem trim_idem (v : Str) : trimStr (trimStr v) = trimStr v := by
  obtain ⟨p, q, hv, hp, hq⟩ := trim_decomp v
  calc trimStr (trimStr v) = trimStr (p ++ trimStr v ++ q) := (trim_pad hp hq).symm
    _ = trimStr v := by rw [← hv]

theorem mem_of_mem_trim {c : Char} {v : Str} (h : c ∈ trimStr v) : c ∈ v := by
  obtain ⟨p, q, hv, _, _⟩ := trim_decomp v
  rw [hv]
  exact List.mem_append.mpr (Or.inl (List.mem_append.mpr (Or.inr h)))

/-- The `\s*(.+?)\s*$` tail of the lexer pattern succeeds exactly when
the text decomposes into whitespace, a nonempty line-terminator-free
core, and whitespace. -/
theorem value_tail_iff (v : Str) :
    ((if trimStr v = [] then v.any (fun c => !isLineTerm c)
      else (trimStr v).all (fun c => !isLineTerm c)) = true) ↔
    ∃ p m q, v = p ++ m ++ q ∧ (∀ c ∈ p, isWs c = true) ∧
      (∀ c ∈ q, isWs c = true) ∧ m ≠ [] ∧ ∀ c ∈ m, isLineTerm c = false := by
  constructor
  · intro h
    by_cases htv : trimStr v = []
    · rw [if_pos htv] at h
      obtain ⟨c, hc, hlt⟩ := List.any_eq_true.mp h
      have hws := ws_of_trim_nil htv
      obtain ⟨s, t, rfl⟩ := List.append_of_mem hc
      refine ⟨s, [c], t, by simp, fun d hd => hws d (by simp [hd]),
        fun d hd => hws d (by simp [hd]), by simp, ?_⟩
      intro d hd
      rw [List.mem_singleton.mp hd]
      simpa using hlt
    · rw [if_neg htv] at h
      obtain ⟨p, q, hv, hp, hq⟩ := trim_decomp v
      exact ⟨p, trimStr v, q, hv, hp, hq, htv,
        fun c hc => by simpa using List.all_eq_true.mp h c hc⟩
  · rintro ⟨p, m, q, rfl, hp, hq, hm, hlt⟩
    by_cases htv : trimStr (p ++ m ++ q) = []
    · rw [if_pos htv]
      obtain ⟨c, hc⟩ := List.exists_mem_of_ne_nil m hm
      refine List.any_eq_true.mpr ⟨c, ?_, by simp [hlt c hc]⟩
      exact List.mem_append.mpr (Or.inl (List.mem_append.mpr (Or.inr hc)))
    · rw [if_neg htv, trim_pad hp hq]
      exact List.all_eq_true.mpr fun c hc => by simp [hlt c (mem_of_mem_trim hc)]

/-- Evaluates parseLine on a string of the shape
whitespace ++ key ++ whitespace ++ "=" ++ tail. -/
theorem parseLine_shape {a k b : Str} (v : Str)
    (ha : ∀ c ∈ a, isWs c = true) (hk : ∀ c ∈ k, isKeyChar c = true)
    (hk0 : k ≠ []) (hb : ∀ c ∈ b, isWs c = true) :
    parseLine (a ++ (k ++ (b ++ '=' :: v))) =
      if trimStr v = [] then
        (if v.any (fun c => !isLineTerm c) then some (toLowerStr k, []) else none)
      else
        (if (trimStr v).all (fun c => !isLineTerm c) then
          some (toLowerStr k, trimStr v) else none) := by
  obtain ⟨kc, kt, rfl⟩ : ∃ kc kt, k = kc :: kt := by
    cases k with
    | nil => exact absurd rfl hk0
    | cons kc kt => exact ⟨kc, kt, rfl⟩
  have hbe : (b ++ '=' :: v).takeWhile isKeyChar = [] ∧
      (b ++ '=' :: v).dropWhile isKeyChar = b ++ '=' :: v := by
    cases b with
    | nil =>
      constructor
      · rw [List.nil_append, List.takeWhile_cons, if_neg (by decide)]
      · rw [List.nil_append, List.dropWhile_cons, if_neg (by decide)]
    | cons w t =>
      have hw : isKeyChar w = false :=
        ws_not_keyChar (hb w (List.mem_cons_self w t))
      constructor
      · rw [List.cons_append, List.takeWhile_cons, if_neg (by simp [hw])]
      · rw [List.cons_append, List.dropWhile_cons, if_neg (by simp [hw])]
  have h1 : (a ++ ((kc :: kt) ++ (b ++ '=' :: v))).dropWhile isWs =
      (kc :: kt) ++ (b ++ '=' :: v) := by
    rw [dropWhile_append_of_all ha, List.cons_append, List.dropWhile_cons,
      if_neg (by simp [keyChar_not_ws (hk kc (List.mem_cons_self kc kt))])]
  have h2 : ((kc :: kt) ++ (b ++ '=' :: v)).takeWhile isKeyChar = kc :: kt := by
    rw [takeWhile_append_of_all hk, hbe.1, List.append_nil]
  have h3 : ((kc :: kt) ++ (b ++ '=' :: v)).dropWhile isKeyChar = b ++ '=' :: v := by
    rw [dropWhile_append_of_all hk, hbe.2]
  have h4 : (b ++ '=' :: v).dropWhile isWs = '=' :: v := by
    rw [dropWhile_append_of_all hb, List.dropWhile_cons, if_neg (by decide)]
  simp only [parseLine, h1, h2, h3, h4]
  simp

/-- Capture of a line whose value part is pure whitespace: provided the
tail is non-empty and not made solely of line terminators, the key is
captured with the empty value. -/
theorem parseLine_capture {ws1 key ws2 ws3 : Str}
    (h1 : ∀ c ∈ ws1, isWs c = true) (h2 : ∀ c ∈ key, isKeyChar c = true)
    (h3 : key ≠ []) (h4 : ∀ c ∈ ws2, isWs c = true)
    (h5 : ∀ c ∈ ws3, isWs c = true)
    (h6 : ∃ c ∈ ws3, isLineTerm c = false) :
    parseLine (ws1 ++ (key ++ (ws2 ++ '=' :: ws3))) = some (toLowerStr key, []) := by
  rw [parseLine_shape ws3 h1 h2 h3 h4, if_pos (trimStr_nil_of_ws h5)]
  obtain ⟨c, hc, hlt⟩ := h6
  rw [if_pos (List.any_eq_true.mpr ⟨c, hc, by simp [hlt]⟩)]

/-- A text without newline characters is a single line. -/
theorem splitLines_no_newline :
    ∀ l : Str, (∀ c ∈ l, c ≠ '\n') → splitLines l = [l] := by
  intro l
  induction l with
  | nil => intro _; rfl
  | cons c rest ih =>
    intro h
    have hrest : ∀ d ∈ rest, d ≠ '\n' := fun d hd => h d (List.mem_cons_of_mem c hd)
    have hc : c ≠ '\n' := h c (List.mem_cons_self c rest)
    cases rest with
    | nil => simp [splitLines, hc]
    | cons d rest2 =>
      have hd : d ≠ '\n' := hrest d (List.mem_cons_self d rest2)
      simp only [splitLines]
      rw [if_neg hc, if_neg (by rintro ⟨_, h2⟩; exact hd h2), ih hrest]

/-- C9 counterexample: the line "mode=" consists of (empty) whitespace,
a key, (empty) whitespace, `=`, and only (zero) whitespace to the end,
yet the lexer does not capture the key: the grammar requires at least
one character after the `=`. -/
theorem c9_counterexample :
    parseDirectives (str "mode=") (str "mode") = none := by decide

/-- C9 amended: a bare "key=" with nothing after the equals is ignored;
a line whose tail after `=` is whitespace containing at least one
non-carriage-return character is captured with the empty value; and in
general a line populates the map iff it matches
ws* key ws* `=` ws* core ws* with core nonempty and free of line
terminators (the grammar's `.+` needs at least one character and `.`
does not match CR/LF). -/
theorem c9_lexer_grammar :
    (∀ l : Str, (parseLine l).isSome = true ↔
      ∃ a k b v, l = a ++ (k ++ (b ++ '=' :: v)) ∧
        (∀ c ∈ a, isWs c = true) ∧ (∀ c ∈ k, isKeyChar c = true) ∧ k ≠ [] ∧
        (∀ c ∈ b, isWs c = true) ∧
        ∃ p m q, v = p ++ m ++ q ∧ (∀ c ∈ p, isWs c = true) ∧
          (∀ c ∈ q, isWs c = true) ∧ m ≠ [] ∧ ∀ c ∈ m, isLineTerm c = false) ∧
    (∀ ws1 key ws2 ws3 : Str,
      (∀ c ∈ ws1, isWs c = true ∧ c ≠ '\n') →
      (∀ c ∈ key, isKeyChar c = true) → key ≠ [] →
      (∀ c ∈ ws2, isWs c = true ∧ c ≠ '\n') →
      (∀ c ∈ ws3, isWs c = true ∧ c ≠ '\n') →
      (∃ c ∈ ws3, c ≠ '\r') →
      parseDirectives (ws1 ++ (key ++ (ws2 ++ '=' :: ws3))) (toLowerStr key) =
        some []) := by
  constructor
  · intro l
    constructor
    · intro h
      simp only [parseLine] at h
      split at h
      · simp at h
      · next hkey =>
        split at h
        · next e v heq =>
          split at h
          · next he =>
            subst he
            have hcond : (if trimStr v = [] then v.any (fun c => !isLineTerm c)
                else (trimStr v).all (fun c => !isLineTerm c)) = true := by
              by_cases htv : trimStr v = []
              · rw [if_pos htv] at h ⊢
                by_cases hany : v.any (fun c => !isLineTerm c) = true
                · exact hany
                · rw [if_neg hany] at h; simp at h
              · rw [if_neg htv] at h ⊢
                by_cases hall : (trimStr v).all (fun c => !isLineTerm c) = true
                · exact hall
                · rw [if_neg hall] at h; simp at h
            refine ⟨l.takeWhile isWs, (l.dropWhile isWs).takeWhile isKeyChar,
              ((l.dropWhile isWs).dropWhile isKeyChar).takeWhile isWs, v, ?_,
              fun c hc => List.mem_takeWhile_imp hc,
              fun c hc => List.mem_takeWhile_imp hc, hkey,
              fun c hc => List.mem_takeWhile_imp hc, (value_tail_iff v).mp hcond⟩
            calc l = l.takeWhile isWs ++ l.dropWhile isWs :=
                  (List.takeWhile_append_dropWhile _ _).symm
              _ = l.takeWhile isWs ++ ((l.dropWhile isWs).takeWhile isKeyChar ++
                    (l.dropWhile isWs).dropWhile isKeyChar) :=
                  congrArg (l.takeWhile isWs ++ ·)
                    (List.takeWhile_append_dropWhile _ _).symm
              _ = l.takeWhile isWs ++ ((l.dropWhile isWs).takeWhile isKeyChar ++
                    (((l.dropWhile isWs).dropWhile isKeyChar).takeWhile isWs ++
                     ((l.dropWhile isWs).dropWhile isKeyChar).dropWhile isWs)) :=
                  congrArg (fun x => l.takeWhile isWs ++
                      ((l.dropWhile isWs).takeWhile isKeyChar ++ x))
                    (List.takeWhile_append_dropWhile _ _).symm
              _ = l.takeWhile isWs ++ ((l.dropWhile isWs).takeWhile isKeyChar ++
                    (((l.dropWhile isWs).dropWhile isKeyChar).takeWhile isWs ++
                     '=' :: v)) := by rw [heq]
          · simp at h
        · simp at h
    · rintro ⟨a, k, b, v, rfl, ha, hkk, hk0, hb, hval⟩
      rw [parseLine_shape v ha hkk hk0 hb]
      have hcond := (value_tail_iff v).mpr hval
      by_cases htv : trimStr v = []
      · rw [if_pos htv] at hcond ⊢
        rw [if_pos hcond]
        rfl
      · rw [if_neg htv] at hcond ⊢
        rw [if_pos hcond]
        rfl
  · intro ws1 key ws2 ws3 hw1 hk hk0 hw2 hw3 hcr
    have hno : ∀ c ∈ ws1 ++ (key ++ (ws2 ++ '=' :: ws3)), c ≠ '\n' := by
      intro c hc
      rcases List.mem_append.mp hc with h | h
      · exact (hw1 c h).2
      rcases List.mem_append.mp h with h | h
      · exact fun heq => by rw [heq] at h; exact absurd (hk _ h) (by decide)
      rcases List.mem_append.mp h with h | h
      · exact (hw2 c h).2
      rcases List.mem_cons.mp h with rfl | h
      · decide
      · exact (hw3 c h).2
    have hcap : parseLine (ws1 ++ (key ++ (ws2 ++ '=' :: ws3))) =
        some (toLowerStr key, []) := by
      refine parseLine_capture (fun c h => (hw1 c h).1) hk hk0
        (fun c h => (hw2 c h).1) (fun c h => (hw3 c h).1) ?_
      obtain ⟨c, hc, hne⟩ := hcr
      exact ⟨c, hc, by simp [isLineTerm, hne, (hw3 c hc).2]⟩
    rw [parseDirectives, splitLines_no_newline _ hno]
    simp [hcap]

/-- Witness for C9's amended theorem: the line "mode=\t" captures the
key with the empty value. -/
theorem c9_witness :
    parseDirectives ([] ++ (str "mode" ++ ([] ++ '=' :: ['\t'])))
      (toLowerStr (str "mode")) = some [] :=
  c9_lexer_grammar.2 [] (str "mode") [] ['\t'] (by decide) (by decide)
    (by decide) (by decide) (by decide) ⟨'\t', by decide, by decide⟩

/-! Lemmas about Char.toLower and the character classes. -/

theorem toLower_spec (c : Char) :
    (65 ≤ c.toNat ∧ c.toNat ≤ 90 ∧ (Char.toLower c).toNat = c.toNat + 32) ∨
    (¬(65 ≤ c.toNat ∧ c.toNat ≤ 90) ∧ Char.toLower c = c) := by
  by_cases h : c.toNat ≥ 65 ∧ c.toNat ≤ 90
  · left
    refine ⟨h.1, h.2, ?_⟩
    have hv : (c.toNat + 32).isValidChar := Or.inl (by omega)
    simp only [Char.toLower]
    rw [if_pos h, Char.ofNat, dif_pos hv]
    rfl
  · right
    refine ⟨h, ?_⟩
    simp only [Char.toLower]
    rw [if_neg h]

theorem toLower_toLower (c : Char) :
    Char.toLower (Char.toLower c) = Char.toLower c := by
  rcases toLower_spec c with ⟨h1, h2, h3⟩ | ⟨_, h2⟩
  · rcases toLower_spec (Char.toLower c) with ⟨g1, g2, _⟩ | ⟨_, g2⟩
    · omega
    · exact g2
  · rw [h2, h2]

theorem isSep_toLower {c : Char} (h : isSep c = false) :
    isSep (Char.toLower c) = false := by
  rcases toLower_spec c with ⟨h1, _, h3⟩ | ⟨_, h2⟩
  · cases hs : isSep (Char.toLower c)
    · rfl
    · exfalso
      have : (Char.toLower c) = ',' ∨ (Char.toLower c) = ' ' ∨
          (Char.toLower c) = '\n' := by simpa [isSep, or_assoc] using hs
      rcases this with he | he | he <;>
        · have := congrArg Char.toNat he
          simp only [h3, show (',' : Char).toNat = 44 from rfl,
            show (' ' : Char).toNat = 32 from rfl,
            show ('\n' : Char).toNat = 10 from rfl] at this
          omega
  · rw [h2]; exact h

theorem isWs_toLower {c : Char} (h : isWs c = false) :
    isWs (Char.toLower c) = false := by
  rcases toLower_spec c with ⟨h1, _, h3⟩ | ⟨_, h2⟩
  · cases hs : isWs (Char.toLower c)
    · rfl
    · exfalso
      rcases isWs_cases hs with he | he | he | he | he | he <;>
        · have := congrArg Char.toNat he
          simp only [h3, show (' ' : Char).toNat = 32 from rfl,
            show ('\t' : Char).toNat = 9 from rfl,
            show ('\n' : Char).toNat = 10 from rfl,
            show ('\r' : Char).toNat = 13 from rfl,
            show (Char.ofNat 11).toNat = 11 from rfl,
            show (Char.ofNat 12).toNat = 12 from rfl] at this
          omega
  · rw [h2]; exact h

theorem toLowerStr_toLowerStr (l : Str) :
    toLowerStr (toLowerStr l) = toLowerStr l := by
  simp only [toLowerStr, List.map_map]
  exact List.map_congr_left fun c _ => toLower_toLower c

/-! Lemmas about the dedup loop: Nodup, fixed point, first-seen order. -/

theorem nodup_dedupKeepFirst : ∀ {seen l : List Str},
    (dedupKeepFirst seen l).Nodup := by
  intro seen l
  induction l generalizing seen with
  | nil => exact List.nodup_nil
  | cons x xs ih =>
    simp only [dedupKeepFirst]
    by_cases h : x ∈ seen
    · rw [if_pos h]; exact ih
    · rw [if_neg h]
      refine List.nodup_cons.mpr ⟨fun hmem => ?_, ih⟩
      exact (mem_dedupKeepFirst.mp hmem).2 (List.mem_cons_self x seen)

theorem dedupKeepFirst_eq_self : ∀ {l seen : List Str},
    l.Nodup → (∀ x ∈ l, x ∉ seen) → dedupKeepFirst seen l = l := by
  intro l
  induction l with
  | nil => intro seen _ _; rfl
  | cons x xs ih =>
    intro seen hnd hs
    simp only [dedupKeepFirst]
    rw [if_neg (hs x (List.mem_cons_self x xs))]
    rw [ih (List.nodup_cons.mp hnd).2]
    intro y hy
    rw [List.mem_cons, not_or]
    exact ⟨fun hyx => (List.nodup_cons.mp hnd).1 (hyx ▸ hy),
      hs y (List.mem_cons_of_mem x hy)⟩

theorem firstIdx_cons_self (a : Str) (l : List Str) :
    firstIdx a (a :: l) = 0 := by
  simp [firstIdx]

theorem firstIdx_cons_ne {a x : Str} (l : List Str) (h : x ≠ a) :
    firstIdx a (x :: l) = firstIdx a l + 1 := by
  simp [firstIdx, h]

theorem pairwise_firstIdx_dedupKeepFirst : ∀ {l seen : List Str},
    List.Pairwise (fun a b => firstIdx a l < firstIdx b l)
      (dedupKeepFirst seen l) := by
  intro l
  induction l with
  | nil => intro seen; exact List.Pairwise.nil
  | cons x xs ih =>
    intro seen
    simp only [dedupKeepFirst]
    by_cases h : x ∈ seen
    · rw [if_pos h]
      refine (@ih seen).imp_of_mem fun {a b} hma hmb hab => ?_
      have hax : a ≠ x := fun he =>
        (mem_dedupKeepFirst.mp hma).2 (he ▸ h)
      have hbx : b ≠ x := fun he =>
        (mem_dedupKeepFirst.mp hmb).2 (he ▸ h)
      rw [firstIdx_cons_ne _ (Ne.symm hax), firstIdx_cons_ne _ (Ne.symm hbx)]
      exact Nat.succ_lt_succ hab
    · rw [if_neg h]
      refine List.pairwise_cons.mpr ⟨fun b hb => ?_, ?_⟩
      · have hbx : b ≠ x := fun he =>
          (mem_dedupKeepFirst.mp hb).2 (he ▸ List.mem_cons_self x seen)
        rw [firstIdx_cons_self, firstIdx_cons_ne _ (Ne.symm hbx)]
        exact Nat.succ_pos _
      · refine (@ih (x :: seen)).imp_of_mem fun {a b} hma hmb hab => ?_
        have hax : a ≠ x := fun he =>
          (mem_dedupKeepFirst.mp hma).2 (he ▸ List.mem_cons_self x seen)
        have hbx : b ≠ x := fun he =>
          (mem_dedupKeepFirst.mp hmb).2 (he ▸ List.mem_cons_self x seen)
        rw [firstIdx_cons_ne _ (Ne.symm hax), firstIdx_cons_ne _ (Ne.symm hbx)]
        exact Nat.succ_lt_succ hab

/-! Token properties of the normalizer. -/

theorem chunks_nonsep : ∀ {l cur : Str}, (∀ c ∈ cur, isSep c = false) →
    ∀ t ∈ splitSepsAux cur l, ∀ c ∈ t, isSep c = false := by
  intro l
  induction l with
  | nil =>
    intro cur hcur t ht c hc
    by_cases h : cur = []
    · simp [splitSepsAux, h] at ht
    · simp only [splitSepsAux, if_neg h, List.mem_singleton] at ht
      subst ht
      exact hcur c (List.mem_reverse.mp hc)
  | cons a as ih =>
    intro cur hcur t ht c hc
    by_cases hs : isSep a = true
    · rw [splitSepsAux, if_pos hs] at ht
      by_cases hn : cur = []
      · rw [if_pos hn] at ht
        exact ih (by simp) t ht c hc
      · rw [if_neg hn] at ht
        rcases List.mem_cons.mp ht with rfl | ht'
        · exact hcur c (List.mem_reverse.mp hc)
        · exact ih (by simp) t ht' c hc
    · rw [splitSepsAux, if_neg hs] at ht
      refine ih ?_ t ht c hc
      intro d hd
      rcases List.mem_cons.mp hd with rfl | hd'
      · exact Bool.eq_false_iff.mpr hs
      · exact hcur d hd'

theorem normalizeList_token_props {raw t : Str} (h : t ∈ normalizeList raw) :
    t ≠ [] ∧ trimStr t = t ∧ ∀ c ∈ t, isSep c = false := by
  unfold normalizeList at h
  obtain ⟨hmap, hne⟩ := List.mem_filter.mp h
  obtain ⟨u, hu, rfl⟩ := List.mem_map.mp hmap
  refine ⟨by simpa [List.isEmpty_iff] using hne, trim_idem u, ?_⟩
  intro c hc
  exact chunks_nonsep (by simp) u hu c (mem_of_mem_trim hc)

theorem length_trimRight_le (l : Str) : (trimRight l).length ≤ l.length := by
  rw [trimRight, List.length_reverse]
  calc (l.reverse.dropWhile isWs).length
      ≤ l.reverse.length := (List.dropWhile_suffix _).sublist.length_le
    _ = l.length := List.length_reverse l

theorem trim_fix_parts {t : Str} (h : trimStr t = t) :
    t.dropWhile isWs = t ∧ t.reverse.dropWhile isWs = t.reverse := by
  have h1 : t.dropWhile isWs = t := by
    have hle : t.length ≤ (t.dropWhile isWs).length := by
      conv_lhs => rw [← h]
      exact length_trimRight_le _
    exact (List.dropWhile_suffix _).eq_of_length
      (Nat.le_antisymm (List.dropWhile_suffix _).sublist.length_le hle)
  refine ⟨h1, ?_⟩
  have h2 : trimRight t = t := by
    conv_lhs => rw [← h1]
    exact h
  have h3 := congrArg List.reverse h2
  rw [trimRight, List.reverse_reverse] at h3
  exact h3

theorem dropWhile_toLower {t : Str} (h : t.dropWhile isWs = t) :
    (toLowerStr t).dropWhile isWs = toLowerStr t := by
  cases t with
  | nil => rfl
  | cons c t' =>
    have hc : isWs c = false := by
      cases hw : isWs c
      · rfl
      · exfalso
        rw [List.dropWhile_cons, if_pos hw] at h
        have hlen := congrArg List.length h
        have hle : (t'.dropWhile isWs).length ≤ t'.length :=
          (List.dropWhile_suffix _).sublist.length_le
        simp at hlen
        omega
    rw [toLowerStr, List.map_cons, List.dropWhile_cons,
      if_neg (by simp [isWs_toLower hc])]

theorem trimStr_toLower {t : Str} (h : trimStr t = t) :
    trimStr (toLowerStr t) = toLowerStr t := by
  obtain ⟨h1, h2⟩ := trim_fix_parts h
  have g1 : (toLowerStr t).dropWhile isWs = toLowerStr t := dropWhile_toLower h1
  have g2 : (toLowerStr t).reverse.dropWhile isWs = (toLowerStr t).reverse := by
    have := dropWhile_toLower h2
    rwa [toLowerStr, List.map_reverse] at this
  rw [trimStr, g1, trimRight, g2, List.reverse_reverse]

theorem splitSepsAux_run {t : Str} (ht : ∀ c ∈ t, isSep c = false) :
    ∀ (r cur : Str), splitSepsAux cur (t ++ r) = splitSepsAux (t.reverse ++ cur) r := by
  induction t with
  | nil => intro r cur; simp
  | cons c t' ih =>
    intro r cur
    have hc : isSep c = false := ht c (List.mem_cons_self _ _)
    calc splitSepsAux cur ((c :: t') ++ r)
        = splitSepsAux (c :: cur) (t' ++ r) := by
          rw [List.cons_append, splitSepsAux, if_neg (by simp [hc])]
      _ = splitSepsAux (t'.reverse ++ (c :: cur)) r :=
          ih (fun d hd => ht d (List.mem_cons_of_mem _ hd)) r (c :: cur)
      _ = splitSepsAux ((c :: t').reverse ++ cur) r := by
          rw [List.reverse_cons, List.append_assoc]
          rfl

theorem splitSeps_single {t : Str} (h0 : t ≠ [])
    (hs : ∀ c ∈ t, isSep c = false) : splitSeps t = [t] := by
  have h := splitSepsAux_run hs [] []
  rw [List.append_nil, List.append_nil] at h
  rw [splitSeps, h, splitSepsAux,
    if_neg (by simpa [List.reverse_eq_nil_iff] using h0), List.reverse_reverse]

theorem splitSeps_join : ∀ {L : List Str},
    (∀ t ∈ L, t ≠ [] ∧ ∀ c ∈ t, isSep c = false) →
    splitSeps (joinSp L) = L := by
  intro L
  induction L with
  | nil => intro _; rfl
  | cons t ls ih =>
    intro h
    cases ls with
    | nil =>
      have ht := h t (List.mem_cons_self _ _)
      exact splitSeps_single ht.1 ht.2
    | cons t2 ls2 =>
      have ht := h t (List.mem_cons_self _ _)
      have hrev : t.reverse ≠ [] := by
        simpa [List.reverse_eq_nil_iff] using ht.1
      calc splitSeps (joinSp (t :: t2 :: ls2))
          = splitSepsAux (t.reverse ++ []) (' ' :: joinSp (t2 :: ls2)) :=
            splitSepsAux_run ht.2 _ _
        _ = t :: splitSeps (joinSp (t2 :: ls2)) := by
            rw [List.append_nil, splitSepsAux, if_pos (by decide), if_neg hrev,
              List.reverse_reverse]
            rfl
        _ = t :: (t2 :: ls2) := by
            rw [ih fun u hu => h u (List.mem_cons_of_mem _ hu)]

theorem normalizeList_join {L : List Str}
    (h : ∀ t ∈ L, t ≠ [] ∧ trimStr t = t ∧ ∀ c ∈ t, isSep c = false) :
    normalizeList (joinSp L) = L := by
  rw [normalizeList, splitSeps_join fun t ht => ⟨(h t ht).1, (h t ht).2.2⟩,
    List.map_congr_left fun t ht => (h t ht).2.1, List.map_id']
  exact List.filter_eq_self.mpr fun t ht => by simp [List.isEmpty_iff, (h t ht).1]

/-- C3: the composite normalizer is idempotent (re-normalizing its
space-joined output changes nothing); its output has no empty tokens,
every token is lower-cased, no two tokens agree case-insensitively
(Nodup plus lower-case injectivity), tokens are listed in first-seen
order of the lower-cased split, and membership is exactly that of the
lower-cased token sequence. -/
theorem c3_normalizer (s : Str) :
    normalizedTokens (joinSp (normalizedTokens s)) = normalizedTokens s ∧
    (∀ t ∈ normalizedTokens s, t ≠ []) ∧
    (∀ t ∈ normalizedTokens s, toLowerStr t = t) ∧
    (normalizedTokens s).Nodup ∧
    (∀ t u, t ∈ normalizedTokens s → u ∈ normalizedTokens s →
      toLowerStr t = toLowerStr u → t = u) ∧
    List.Pairwise (fun a b =>
      firstIdx a ((normalizeList s).map toLowerStr) <
      firstIdx b ((normalizeList s).map toLowerStr)) (normalizedTokens s) ∧
    (∀ t, t ∈ normalizedTokens s ↔ t ∈ (normalizeList s).map toLowerStr) := by
  have hmem : ∀ t, t ∈ normalizedTokens s ↔ t ∈ (normalizeList s).map toLowerStr := by
    intro t
    rw [normalizedTokens, lowerUnique, mem_dedupKeepFirst]
    simp
  have hprops : ∀ t ∈ normalizedTokens s,
      t ≠ [] ∧ trimStr t = t ∧ (∀ c ∈ t, isSep c = false) ∧ toLowerStr t = t := by
    intro t ht
    obtain ⟨u, hu, rfl⟩ := List.mem_map.mp ((hmem t).mp ht)
    obtain ⟨hu1, hu2, hu3⟩ := normalizeList_token_props hu
    refine ⟨by simpa [toLowerStr] using hu1, trimStr_toLower hu2, ?_,
      toLowerStr_toLowerStr u⟩
    intro c hc
    obtain ⟨d, hd, rfl⟩ := List.mem_map.mp hc
    exact isSep_toLower (hu3 d hd)
  refine ⟨?_, fun t ht => (hprops t ht).1, fun t ht => (hprops t ht).2.2.2,
    nodup_dedupKeepFirst, ?_, pairwise_firstIdx_dedupKeepFirst, hmem⟩
  · have hL : normalizeList (joinSp (normalizedTokens s)) = normalizedTokens s :=
      normalizeList_join fun t ht =>
        ⟨(hprops t ht).1, (hprops t ht).2.1, (hprops t ht).2.2.1⟩
    rw [normalizedTokens, hL, lowerUnique,
      List.map_congr_left fun t ht => (hprops t ht).2.2.2, List.map_id']
    exact dedupKeepFirst_eq_self nodup_dedupKeepFirst fun x _ => List.not_mem_nil x
  · intro t u ht hu he
    rw [← (hprops t ht).2.2.2, he, (hprops u hu).2.2.2]

/-- Witness for C3 at the raw string "A b,a": idempotence and the
non-emptiness of a concrete token. -/
theorem c3_witness :
    normalizedTokens (joinSp (normalizedTokens (str "A b,a"))) =
      normalizedTokens (str "A b,a") ∧
    str "a" ≠ [] :=
  ⟨(c3_normalizer (str "A b,a")).1,
   (c3_normalizer (str "A b,a")).2.1 (str "a") (by decide)⟩

end Planner
